import Mathlib

/-!
Shallow embedding of the core of `src/unicode.go` (the `main` package of
robpike.io/cmd/unicode; the file holds two near-duplicate revisions, and all
line references below are to the second one, which the analysed claims cite).

Modelling conventions:
  * Go strings are modelled as Lean `String` (processed through their
    character lists); all database and argument text relevant here is ASCII,
    where Go's byte indexing and character indexing coincide.
  * Go `rune` (`int32`) values are modelled as `Int`; `strconv.ParseInt`
    with bit size 22 keeps every accepted value well inside `int32`, so no
    wrap-around can occur and `Int` is exact.
  * `fatalf` (print to standard error and `os.Exit(2)`) is modelled by an
    `Except Err` result: `.error e` means the process terminated via
    `fatalf` with no further standard output; every such exit carries
    status 2 (`errExitCode`).
  * `regexp.Compile`/`MatchString` is abstracted by a matcher parameter
    `m : String → String → Bool` (pattern, text); `matchLit` instantiates it
    with the semantics Go's regexp engine gives to a metacharacter-free
    (literal) pattern, namely substring containment.
-/

/-- Go `strings.Split(s, sep)` for a one-character separator, on the
character list.  `splitChar sep l` never returns `[]`; splitting the empty
string yields `[[]]`, matching Go. -/
def splitChar (sep : Char) : List Char → List (List Char)
  | [] => [[]]
  | c :: cs =>
    if c = sep then [] :: splitChar sep cs
    else
      match splitChar sep cs with
      | [] => [[c]]
      | p :: ps => (c :: p) :: ps

/-- Go `strings.Split(s, sep)` for a one-character separator. -/
def goSplit (s : String) (sep : Char) : List String :=
  (splitChar sep s.data).map String.mk

theorem splitChar_cons (sep c : Char) (cs : List Char) :
    splitChar sep (c :: cs) =
      if c = sep then [] :: splitChar sep cs
      else
        match splitChar sep cs with
        | [] => [[c]]
        | p :: ps => (c :: p) :: ps := rfl

theorem splitChar_ne_nil (sep : Char) (l : List Char) : splitChar sep l ≠ [] := by
  cases l with
  | nil => simp [splitChar]
  | cons c cs =>
    rw [splitChar_cons]
    split
    · simp
    · split <;> simp

theorem length_splitChar (sep : Char) (l : List Char) :
    (splitChar sep l).length = l.count sep + 1 := by
  induction l with
  | nil => simp [splitChar]
  | cons c cs ih =>
    rw [splitChar_cons]
    by_cases h : c = sep
    · subst h
      simp [List.count_cons, ih]
    · rw [if_neg h]
      cases hs : splitChar sep cs with
      | nil => exact absurd hs (splitChar_ne_nil sep cs)
      | cons p ps =>
        have h2 := ih
        rw [hs] at h2
        simp only [List.length_cons] at h2 ⊢
        simp only [List.count_cons, beq_iff_eq]
        rw [if_neg h]
        omega

theorem splitChar_of_not_mem {sep : Char} {l : List Char} (h : sep ∉ l) :
    splitChar sep l = [l] := by
  induction l with
  | nil => rfl
  | cons c cs ih =>
    have h1 : ¬(c = sep) := fun hc => h (by rw [hc]; exact List.mem_cons_self _ _)
    have h2 : sep ∉ cs := fun hm => h (List.mem_cons_of_mem _ hm)
    rw [splitChar_cons, if_neg h1, ih h2]

theorem splitChar_append_sep {sep : Char} {l₁ : List Char} (l₂ : List Char)
    (h : sep ∉ l₁) :
    splitChar sep (l₁ ++ sep :: l₂) = l₁ :: splitChar sep l₂ := by
  induction l₁ with
  | nil => rw [List.nil_append, splitChar_cons, if_pos rfl]
  | cons c cs ih =>
    have h1 : ¬(c = sep) := fun hc => h (by rw [hc]; exact List.mem_cons_self _ _)
    have h2 : sep ∉ cs := fun hm => h (List.mem_cons_of_mem _ hm)
    rw [List.cons_append, splitChar_cons, if_neg h1, ih h2]

theorem not_mem_of_mem_splitChar {sep : Char} {l p : List Char}
    (h : p ∈ splitChar sep l) : sep ∉ p := by
  induction l generalizing p with
  | nil =>
    simp only [splitChar, List.mem_singleton] at h
    subst h; simp
  | cons c cs ih =>
    rw [splitChar_cons] at h
    by_cases hc : c = sep
    · rw [if_pos hc] at h
      rcases List.mem_cons.mp h with h | h
      · subst h; simp
      · exact ih h
    · rw [if_neg hc] at h
      cases hs : splitChar sep cs with
      | nil => exact absurd hs (splitChar_ne_nil sep cs)
      | cons q qs =>
        rw [hs] at h
        rcases List.mem_cons.mp h with h | h
        · subst h
          intro hm
          rcases List.mem_cons.mp hm with hm | hm
          · exact hc hm.symm
          · exact ih (hs ▸ List.mem_cons_self q qs) hm
        · exact ih (hs ▸ List.mem_cons_of_mem q h)

theorem splitChar_append_last (sep : Char) (l : List Char) :
    splitChar sep (l ++ [sep]) = splitChar sep l ++ [[]] := by
  induction l with
  | nil =>
    rw [List.nil_append, splitChar_cons, if_pos rfl]
    rfl
  | cons c cs ih =>
    rw [List.cons_append, splitChar_cons, splitChar_cons, ih]
    by_cases h : c = sep
    · rw [if_pos h, if_pos h]
      rfl
    · rw [if_neg h, if_neg h]
      cases hs : splitChar sep cs with
      | nil => exact absurd hs (splitChar_ne_nil sep cs)
      | cons p ps => rfl

theorem strData_append (a b : String) : (a ++ b).data = a.data ++ b.data := rfl

theorem strMk_data (s : String) : String.mk s.data = s := rfl

/-- The failure modes routed through `fatalf`/`usage` (all exit the process
with status 2).  `parseBadNum s`/`parseRange s` model the two
`strconv.NumError` kinds produced by `strconv.ParseInt(s, 16, 22)`;
`malformed i` models `fatalf("malformed database: line %d", i)`;
`usage` models the usage text printed by `usage()`. -/
inductive Err where
  | usage : Err
  | parseBadNum : String → Err
  | parseRange : String → Err
  | malformed : Nat → Err
deriving DecidableEq, Repr

/-- `fatalf` always terminates via `os.Exit(2)`. -/
def errExitCode (_ : Err) : Nat := 2

instance {ε α : Type} [DecidableEq ε] [DecidableEq α] : DecidableEq (Except ε α) :=
  fun x y =>
    match x, y with
    | .ok a, .ok b =>
      if h : a = b then isTrue (by rw [h]) else isFalse (by simp [h])
    | .error e, .error f =>
      if h : e = f then isTrue (by rw [h]) else isFalse (by simp [h])
    | .ok _, .error _ => isFalse (by simp)
    | .error _, .ok _ => isFalse (by simp)

/-- Value of a base-16 digit character, as accepted by
`strconv.ParseInt(_, 16, _)`. -/
def hexDigitVal (c : Char) : Option Nat :=
  if '0' ≤ c ∧ c ≤ '9' then some (c.toNat - '0'.toNat)
  else if 'a' ≤ c ∧ c ≤ 'f' then some (c.toNat - 'a'.toNat + 10)
  else if 'A' ≤ c ∧ c ≤ 'F' then some (c.toNat - 'A'.toNat + 10)
  else none

def parseHexDigitsAux : List Char → Nat → Option Nat
  | [], acc => some acc
  | c :: cs, acc =>
    match hexDigitVal c with
    | none => none
    | some d => parseHexDigitsAux cs (acc * 16 + d)

/-- Digits part of `strconv.ParseUint(s, 16, _)`: at least one digit, all
base-16.  (With an explicit base, Go allows neither a `0x` prefix nor
underscores.) -/
def parseHexDigits : List Char → Option Nat
  | [] => none
  | l => parseHexDigitsAux l 0

/-- `parseRune` (src/unicode.go:503-509): `strconv.ParseInt(s, 16, 22)`
converted to a rune, with any `strconv` error routed through `fatalf`.
`ParseInt` strips one optional leading sign and requires the value to fit a
22-bit signed integer. -/
def parseRune (s : String) : Except Err Int :=
  let signDigits : Bool × List Char :=
    match s.data with
    | '+' :: rest => (false, rest)
    | '-' :: rest => (true, rest)
    | l => (false, l)
  match parseHexDigits signDigits.2 with
  | none => .error (.parseBadNum s)
  | some n =>
    let v : Int := if signDigits.1 then -(n : Int) else (n : Int)
    if v < -(2 ^ 21) ∨ (2 ^ 21 : Int) - 1 < v then .error (.parseRange s)
    else .ok v

/-- The seven boolean command-line flags, in declaration order
(src/unicode.go:314-322). -/
structure Flags where
  doNum : Bool
  doChar : Bool
  doText : Bool
  doDesc : Bool
  doUnic : Bool
  doUNIC : Bool
  doGrep : Bool
deriving DecidableEq, Repr

/-- All flags default to `false`. -/
def flagsDefault : Flags := ⟨false, false, false, false, false, false, false⟩

/-- `*doChar = true` keeping the rest. -/
def setChar (fl : Flags) : Flags :=
  ⟨fl.doNum, true, fl.doText, fl.doDesc, fl.doUnic, fl.doUNIC, fl.doGrep⟩

/-- `*doNum = true` keeping the rest. -/
def setNum (fl : Flags) : Flags :=
  ⟨true, fl.doChar, fl.doText, fl.doDesc, fl.doUnic, fl.doUNIC, fl.doGrep⟩

/-- The character set scanned by the sniffer
(src/unicode.go:460: `"0123456789abcdefABCDEF-"`). -/
def hexDashChars : List Char := "0123456789abcdefABCDEF-".data

/-- The sniffing condition of `mode` (src/unicode.go:457-468): every
character of the joined arguments lies in `hexDashChars` and at most one of
them is `'-'`.  (The Go loop computes both accumulators in one pass; `all`
plus `count` is the same function.) -/
def sniffB (args : List String) : Bool :=
  ((String.join args).data.all fun r => hexDashChars.contains r) &&
    decide ((String.join args).data.count '-' ≤ 1)

/-- `mode` (src/unicode.go:446-473).  Decides numeric vs character input:
usage error on no arguments; grep defaults its output format to numeric; an
explicit `-n`/`-c` suppresses sniffing; otherwise the argument characters
are sniffed. -/
def mode (fl : Flags) (args : List String) : Except Err Flags :=
  if args.length = 0 then .error .usage
  else
    let fl1 :=
      if fl.doGrep && !(fl.doNum || fl.doChar || fl.doDesc || fl.doUnic || fl.doUNIC)
      then setNum fl else fl
    if fl1.doNum || fl1.doChar then .ok fl1
    else if sniffB args then .ok (setChar fl1) else .ok (setNum fl1)

/-- `argsAreChars` (src/unicode.go:475-487): every character of every
argument becomes its code point, with a space appended after an argument
when `-t` is set and the argument is not the last one
(`i < len(flag.Args())-1`). -/
def argsAreChars (doText : Bool) (args : List String) : List Int :=
  args.enum.foldl
    (fun codes ia =>
      let codes2 := codes ++ ia.2.data.map fun c => (c.toNat : Int)
      if doText && decide (ia.1 < args.length - 1) then codes2 ++ [32] else codes2)
    []

/-- The inclusive hex range loop of `argsAreNumbers`
(src/unicode.go:521-523): `for ; r1 <= r2; r1++ { codes = append(codes, r1) }`,
unrolled on the iteration count. -/
def rangeCodesAux (r1 : Int) : Nat → List Int
  | 0 => []
  | n + 1 => r1 :: rangeCodesAux (r1 + 1) n

def rangeCodes (r1 r2 : Int) : List Int :=
  rangeCodesAux r1 (r2 + 1 - r1).toNat

/-- `argsAreNumbers` (src/unicode.go:511-529), with the global `printRange`
threaded explicitly.  The returned boolean is the final value of
`printRange`, reported even when the run dies in `fatalf`, because the Go
assignment `printRange = true` happens before either end of a range token is
parsed. -/
def argsAreNumbersAux : List String → Bool → Bool × Except Err (List Int)
  | [], pr => (pr, .ok [])
  | a :: rest, pr =>
    match goSplit a '-' with
    | [s1, s2] =>
      match parseRune s1 with
      | .error e => (true, .error e)
      | .ok r1 =>
        match parseRune s2 with
        | .error e => (true, .error e)
        | .ok r2 =>
          if r2 < r1 then (true, .error .usage)
          else
            match argsAreNumbersAux rest true with
            | (pr2, res) => (pr2, res.map (rangeCodes r1 r2 ++ ·))
    | _ =>
      match parseRune a with
      | .error e => (pr, .error e)
      | .ok r =>
        match argsAreNumbersAux rest pr with
        | (pr2, res) => (pr2, res.map (r :: ·))

def argsAreNumbers (args : List String) : Bool × Except Err (List Int) :=
  argsAreNumbersAux args false

/-- `runeOfLine` (src/unicode.go:569-575): position of the first `'\t'` or
`';'` (`strings.IndexAny(line, "\t;")`; both separators are ASCII, so the
byte index is the character index) and the hex code point parsed from the
text before it.  A line with no separator dies in
`fatalf("malformed database: line %d", i)`. -/
def runeOfLineE (i : Nat) (line : String) : Except Err (Int × Nat) :=
  match line.data.findIdx? fun c => c == '\t' || c == ';' with
  | none => .error (.malformed i)
  | some tab => (parseRune (String.mk (line.data.take tab))).map fun r => (r, tab)

/-- Whether `runeOfLine` succeeds on `line` (independent of the line
number, which only feeds the error message). -/
def lineOk (line : String) : Bool :=
  match line.data.findIdx? fun c => c == '\t' || c == ';' with
  | none => false
  | some tab => (parseRune (String.mk (line.data.take tab))).isOk

/-- The code point of a well-formed database line (its value on lines where
`lineOk` fails is irrelevant). -/
def codeOfLine (line : String) : Int :=
  match runeOfLineE 0 line with
  | .ok rt => rt.1
  | .error _ => 0

/-- The separator position of a well-formed database line. -/
def tabOfLine (line : String) : Nat :=
  (line.data.findIdx? fun c => c == '\t' || c == ';').getD 0

/-- One pattern of `argsAreRegexps` (src/unicode.go:539-544): scan the
(index, line) pairs in file order; a matched line contributes the code point
`runeOfLine` extracts from it. -/
def grepOne (m : String → String → Bool) (a : String) :
    List (Nat × String) → Except Err (List Int)
  | [] => .ok []
  | il :: rest =>
    if m a il.2 then
      match runeOfLineE il.1 il.2 with
      | .error e => .error e
      | .ok rt => (grepOne m a rest).map (rt.1 :: ·)
    else grepOne m a rest

/-- `argsAreRegexps` (src/unicode.go:531-547) over an already-loaded line
list, with the compiled regexp abstracted by the matcher `m` (pattern,
line).  Patterns whose compilation fails are outside this model; `matchLit`
below instantiates `m` for literal patterns, which always compile. -/
def argsAreRegexpsE (m : String → String → Bool) (lines : List String) :
    List String → Except Err (List Int)
  | [] => .ok []
  | a :: rest =>
    match grepOne m a lines.enum with
    | .error e => .error e
    | .ok cs => (argsAreRegexpsE m lines rest).map (cs ++ ·)

/-- Does the pattern list `p` start the text list `t`? -/
def listStartsWith : List Char → List Char → Bool
  | [], _ => true
  | _ :: _, [] => false
  | a :: as, b :: bs => a == b && listStartsWith as bs

/-- Contiguous-substring search. -/
def listContainsSub (p : List Char) : List Char → Bool
  | [] => listStartsWith p []
  | c :: ts => listStartsWith p (c :: ts) || listContainsSub p ts

/-- Semantics of Go `regexp.MustCompile(pat).MatchString(s)` for a pattern
with no regular-expression metacharacters: plain substring containment. -/
def matchLit (pat s : String) : Bool := listContainsSub pat.data s.data

/-- Go `strings.ToLower` for the ASCII text handled here. -/
def toLowerStr (s : String) : String := String.mk (s.data.map Char.toLower)

/-- Modelled from the claim and spec wording only (src/unicode.go has no
such key): the search key the spec says regexp search matches against —
lowercased hex code point, a tab, the lowercased short-name field (field 1
of the semicolon-split line), and, if present, `"; "` plus the lowercased
Unicode-1.0-name field (field 10 of the line, i.e. field 9 of the record).
It exists to be compared with `argsAreRegexpsE`, which matches the raw
line. -/
def searchKeySpec (line : String) : String :=
  let lf := (splitChar ';' line.data).map String.mk
  toLowerStr (lf.getD 0 "") ++ "\t" ++ toLowerStr (lf.getD 1 "") ++
    (if lf.getD 10 "" ≠ "" then "; " ++ toLowerStr (lf.getD 10 "") else "")

/-- The trailing-empty-line drop of `getFile` (src/unicode.go:562-564). -/
def dropTrailingEmpty (ls : List String) : List String :=
  match ls.getLast? with
  | some l => if l = "" then ls.dropLast else ls
  | none => ls

/-- `getFile` (src/unicode.go:551-567) applied to raw text already read
from disk: split on newline and drop the single empty final line. -/
def getFileLines (text : String) : List String :=
  dropTrailingEmpty (goSplit text '\n')

/-- The index-building loop of `desc` (src/unicode.go:580-583):
`runeData[r] = l[tab+1:]` for every (index, line) pair, dying at the first
malformed line.  The association list keeps insertion order; `lookupRec`
reproduces the Go map by letting the last binding win. -/
def loadIndexAux : List (Nat × String) → Except Err (List (Int × String))
  | [] => .ok []
  | il :: rest =>
    match runeOfLineE il.1 il.2 with
    | .error e => .error e
    | .ok rt =>
      (loadIndexAux rest).map ((rt.1, String.mk (il.2.data.drop (rt.2 + 1))) :: ·)

def loadIndex (lines : List String) : Except Err (List (Int × String)) :=
  loadIndexAux lines.enum

/-- `runeData[r]` with the Go zero value `""` for an absent key. -/
def lookupRec (entries : List (Int × String)) (r : Int) : String :=
  match entries.reverse.find? fun e => e.1 == r with
  | some e => e.2
  | none => ""

/-- The 14 field labels `prop` (src/unicode.go:595-610). -/
def propLabels : List String :=
  ["",
   "category: ",
   "canonical combining classes: ",
   "bidirectional category: ",
   "character decomposition mapping: ",
   "decimal digit value: ",
   "digit value: ",
   "numeric value: ",
   "mirrored: ",
   "Unicode 1.0 name: ",
   "10646 comment field: ",
   "uppercase mapping: ",
   "lowercase mapping: ",
   "titlecase mapping: "]

/-- `dumpUnicode` (src/unicode.go:612-632, the non-fatal revision): split
the record on `';'`; on a field count other than 14 emit a single inline
message and keep going; otherwise print each non-empty field as a labelled
line, tab-prefixed from field 1 on. -/
def dumpUnicode (s : String) : String :=
  let fields := (splitChar ';' s.data).map String.mk
  if fields.length = 0 then "\n"
  else if fields.length ≠ 14 then
    s ++ ": can\x27t print: expected 14 fields, got " ++ toString fields.length ++ "\n"
  else
    fields.enum.foldl
      (fun b f =>
        if f.2 = "" then b
        else b ++ (if 0 < f.1 then "\t" else "") ++ propLabels.getD f.1 "" ++ f.2 ++ "\n")
      ""

/-- `desc` (src/unicode.go:577-593) as a list of per-code-point pairs
`(code point, description string)`: the printed line is `"%#U "` (the
standard Unicode notation of the code point, outside this model) followed by
the description — the raw record (plus a line break supplied by the format
string) when `-U` is off, `dumpUnicode` of the record when `-U` is on. -/
def descRun (doUNIC : Bool) (text : String) (codes : List Int) :
    Except Err (List (Int × String)) :=
  match loadIndex (getFileLines text) with
  | .error e => .error e
  | .ok es =>
    .ok (codes.map fun r =>
      (r, if doUNIC then dumpUnicode (lookupRec es r) else lookupRec es r))

/-- Go `fmt` `"%c"`: invalid runes (negative, surrogate, or above U+10FFFF)
print as the replacement character U+FFFD. -/
def charOf (n : Int) : Char :=
  if 0 ≤ n ∧ Nat.isValidChar n.toNat then Char.ofNat n.toNat else '�'

/-- Zero-pad hex digits on the left to at least four characters. -/
def pad4 (ds : List Char) : List Char := List.replicate (4 - ds.length) '0' ++ ds

/-- Go `fmt` `"%.4x"` on a rune: lowercase hex, zero-padded to at least four
digits, a `'-'` sign first for negative values. -/
def hex4 (n : Int) : List Char :=
  if n < 0 then '-' :: pad4 (Nat.toDigits 16 (-n).toNat)
  else pad4 (Nat.toDigits 16 n.toNat)

/-- One `printRange` entry `fmt.Fprintf(b, "%.4x %c", c, c)`
(src/unicode.go:401). -/
def rangeEntry (c : Int) : List Char := hex4 c ++ [' ', charOf c]

/-- The separator written after the entry at index `i`
(src/unicode.go:402-406): a line break after every fourth entry, a tab
otherwise. -/
def rangeSep (i : Nat) : List Char := if i % 4 = 3 then ['\n'] else ['\t']

/-- The final fix-up of `main` (src/unicode.go:413-415): append a line
break when the buffer is non-empty and does not already end in one. -/
def fixupNL (b : List Char) : List Char :=
  if b ≠ [] ∧ b.getLast? ≠ some '\n' then b ++ ['\n'] else b

/-- The plain-output rendering of `main` (src/unicode.go:393-416): the `-t`
branch prints the characters and a line break; otherwise the buffer loop
writes, per code point, the range pair, the bare character, or the 4-digit
hex, and the final fix-up runs on the buffer. -/
def renderPlain (fl : Flags) (pr : Bool) (codes : List Int) : String :=
  if fl.doText then String.mk (codes.map charOf) ++ "\n"
  else
    String.mk (fixupNL (codes.enum.foldl
      (fun b ic =>
        if pr then b ++ rangeEntry ic.2 ++ rangeSep ic.1
        else if fl.doChar then b ++ [charOf ic.2, '\n']
        else if fl.doNum then b ++ hex4 ic.2 ++ ['\n']
        else b)
      []))

/-- `main` (src/unicode.go:371-417) for runs with no description flag (the
description paths are modelled by `descRun`): decide the mode, produce the
code points (grep / hex-or-range / literal characters), and render the
plain output.  An `.error` result is a `fatalf` exit with nothing printed
to standard output. -/
def mainPlain (m : String → String → Bool) (dbLines : List String)
    (fl0 : Flags) (args : List String) : Except Err String :=
  match mode fl0 args with
  | .error e => .error e
  | .ok fl =>
    let prCodes : Bool × Except Err (List Int) :=
      if fl.doGrep then (false, argsAreRegexpsE m dbLines args)
      else if fl.doChar then argsAreNumbers args
      else if fl.doNum then (false, .ok (argsAreChars fl.doText args))
      else (false, .ok [])
    match prCodes.2 with
    | .error e => .error e
    | .ok codes => .ok (renderPlain fl prCodes.1 codes)

/-! ### Helper lemmas about the argument parsers -/

theorem rangeCodesAux_length (r1 : Int) (n : Nat) : (rangeCodesAux r1 n).length = n := by
  induction n generalizing r1 with
  | zero => rfl
  | succ n ih => simp [rangeCodesAux, ih]

theorem rangeCodesAux_mem {x r1 : Int} {n : Nat} (h : x ∈ rangeCodesAux r1 n) :
    r1 ≤ x := by
  induction n generalizing r1 with
  | zero => simp [rangeCodesAux] at h
  | succ n ih =>
    simp only [rangeCodesAux] at h
    rcases List.mem_cons.mp h with h | h
    · omega
    · have := ih h
      omega

theorem rangeCodesAux_pairwise (r1 : Int) (n : Nat) :
    (rangeCodesAux r1 n).Pairwise (· < ·) := by
  induction n generalizing r1 with
  | zero => simp [rangeCodesAux]
  | succ n ih =>
    simp only [rangeCodesAux]
    refine List.pairwise_cons.mpr ⟨fun x hx => ?_, ih (r1 + 1)⟩
    have := rangeCodesAux_mem hx
    omega

theorem rangeCodesAux_head (r1 : Int) (n : Nat) (h : n ≠ 0) :
    (rangeCodesAux r1 n).head? = some r1 := by
  cases n with
  | zero => exact absurd rfl h
  | succ n => rfl

theorem rangeCodesAux_getLast (r1 : Int) (n : Nat) (h : n ≠ 0) :
    (rangeCodesAux r1 n).getLast? = some (r1 + n - 1) := by
  induction n generalizing r1 with
  | zero => exact absurd rfl h
  | succ n ih =>
    cases n with
    | zero => simp [rangeCodesAux]
    | succ m =>
      have h1 : rangeCodesAux r1 (m + 2) = r1 :: rangeCodesAux (r1 + 1) (m + 1) := rfl
      obtain ⟨b, l, hb⟩ : ∃ b l, rangeCodesAux (r1 + 1) (m + 1) = b :: l := ⟨_, _, rfl⟩
      rw [h1, hb, List.getLast?_cons_cons, ← hb, ih (r1 + 1) (by omega)]
      congr 1
      push_cast
      ring

theorem goSplit_range_token {sa sb : String} (ha : '-' ∉ sa.data) (hb : '-' ∉ sb.data) :
    goSplit (sa ++ "-" ++ sb) '-' = [sa, sb] := by
  have hd : (sa ++ "-" ++ sb).data = sa.data ++ '-' :: sb.data := by
    rw [strData_append, strData_append, List.append_assoc]
    rfl
  rw [goSplit, hd, splitChar_append_sep _ ha, splitChar_of_not_mem hb]
  simp [strMk_data]

/-! ### C2: mode sniffing -/

/-- C2: with neither `-n` nor `-c` set and grep mode off (and at least one
argument), `mode` selects char output exactly when every character of the
joined arguments is one of `0-9a-fA-F-` and at most one of them is a dash,
and numeric output otherwise; in particular `"41"` and `"41-5a"` sniff to
char output while `"hello"` and `"1-2-3"` sniff to numeric output. -/
theorem mode_sniffs_char_iff (fl : Flags) (args : List String)
    (h1 : fl.doNum = false) (h2 : fl.doChar = false) (h3 : fl.doGrep = false)
    (h4 : args ≠ []) :
    mode fl args = .ok (if sniffB args then setChar fl else setNum fl) ∧
    (sniffB args = true ↔
      ((∀ c ∈ (String.join args).data, c ∈ hexDashChars) ∧
        (String.join args).data.count '-' ≤ 1)) ∧
    mode flagsDefault ["41"] = .ok (setChar flagsDefault) ∧
    mode flagsDefault ["41-5a"] = .ok (setChar flagsDefault) ∧
    mode flagsDefault ["hello"] = .ok (setNum flagsDefault) ∧
    mode flagsDefault ["1-2-3"] = .ok (setNum flagsDefault) := by
  refine ⟨?_, ?_, by decide, by decide, by decide, by decide⟩
  · have hlen : ¬(args.length = 0) := by
      cases args with
      | nil => exact absurd rfl h4
      | cons a l => simp
    rw [mode, if_neg hlen, h1, h2, h3]
    simp [h1, h2]
    split <;> rfl
  · rw [sniffB, Bool.and_eq_true, List.all_eq_true, decide_eq_true_iff]
    constructor
    · rintro ⟨hall, hcnt⟩
      exact ⟨fun c hc => by simpa using List.contains_iff_exists_mem_beq.mp (hall c hc), hcnt⟩
    · rintro ⟨hall, hcnt⟩
      refine ⟨fun c hc => ?_, hcnt⟩
      exact List.contains_iff_exists_mem_beq.mpr ⟨c, hall c hc, by simp⟩

/-- C2 witness: a concrete instantiation (`args = ["zz"]`, default flags). -/
theorem mode_sniffs_char_iff_witness :
    mode flagsDefault ["zz"] =
        .ok (if sniffB ["zz"] then setChar flagsDefault else setNum flagsDefault) ∧
      (sniffB ["zz"] = true ↔
        ((∀ c ∈ (String.join ["zz"]).data, c ∈ hexDashChars) ∧
          (String.join ["zz"]).data.count '-' ≤ 1)) :=
  ⟨(mode_sniffs_char_iff flagsDefault ["zz"] rfl rfl rfl (by decide)).1,
    (mode_sniffs_char_iff flagsDefault ["zz"] rfl rfl rfl (by decide)).2.1⟩

/-! ### C3: inclusive ranges -/

/-- C3: a range token `a-b` whose two sides are dash-free valid hex with
`parse a ≤ parse b` makes `argsAreNumbers` yield exactly
`parse b - parse a + 1` code points, strictly ascending, starting at
`parse a` and ending at `parse b`, and sets `printRange`. -/
theorem argsAreNumbers_range (sa sb : String) (r1 r2 : Int)
    (ha : '-' ∉ sa.data) (hb : '-' ∉ sb.data)
    (h1 : parseRune sa = .ok r1) (h2 : parseRune sb = .ok r2) (hle : r1 ≤ r2) :
    argsAreNumbers [sa ++ "-" ++ sb] = (true, .ok (rangeCodes r1 r2)) ∧
    ((rangeCodes r1 r2).length : Int) = r2 - r1 + 1 ∧
    (rangeCodes r1 r2).Pairwise (· < ·) ∧
    (rangeCodes r1 r2).head? = some r1 ∧
    (rangeCodes r1 r2).getLast? = some r2 := by
  have hn : ((r2 + 1 - r1).toNat : Int) = r2 + 1 - r1 := Int.toNat_of_nonneg (by omega)
  have hne : (r2 + 1 - r1).toNat ≠ 0 := by omega
  refine ⟨?_, ?_, rangeCodesAux_pairwise r1 _, rangeCodesAux_head r1 _ hne, ?_⟩
  · have hlt : ¬(r2 < r1) := by omega
    simp only [argsAreNumbers, argsAreNumbersAux, goSplit_range_token ha hb, h1, h2,
      if_neg hlt, Except.map, List.append_nil]
  · rw [rangeCodes, rangeCodesAux_length]
    omega
  · rw [rangeCodes, rangeCodesAux_getLast r1 _ hne]
    congr 1
    omega

/-- C3 witness: the token `"41-45"`. -/
theorem argsAreNumbers_range_witness :
    argsAreNumbers ["41" ++ "-" ++ "45"] = (true, .ok (rangeCodes 65 69)) ∧
    ((rangeCodes 65 69).length : Int) = 69 - 65 + 1 ∧
    (rangeCodes 65 69).Pairwise (· < ·) ∧
    (rangeCodes 65 69).head? = some 65 ∧
    (rangeCodes 65 69).getLast? = some 69 :=
  argsAreNumbers_range "41" "45" 65 69 (by decide) (by decide) (by decide) (by decide)
    (by decide)

/-! ### C10: every one-dash token takes the range branch -/

/-- C10: a token with exactly one `'-'` always splits into exactly two parts
and takes the range branch of `argsAreNumbers`, setting `printRange` before
either side is parsed (the flag is reported `true` whatever the two parses
return); tokens with an empty side such as `"41-"` and `"-"` then die on the
hex-syntax error of the empty side — the error names the empty side, not the
whole token — and never fall back to parsing the whole token as one hex
number. -/
theorem argsAreNumbers_one_dash (a : String) (h : a.data.count '-' = 1) :
    (argsAreNumbersAux [a] false).1 = true ∧
    argsAreNumbers ["41-"] = (true, .error (.parseBadNum "")) ∧
    argsAreNumbers ["-"] = (true, .error (.parseBadNum "")) ∧
    parseRune "41-" = .error (.parseBadNum "41-") := by
  refine ⟨?_, by decide, by decide, by decide⟩
  have hlen : (splitChar '-' a.data).length = 2 := by
    rw [length_splitChar, h]
  cases hs : splitChar '-' a.data with
  | nil => exact absurd hs (splitChar_ne_nil '-' a.data)
  | cons p tl =>
    cases tl with
    | nil => rw [hs] at hlen; simp at hlen
    | cons q tl2 =>
      cases tl2 with
      | cons x tl3 => rw [hs] at hlen; simp at hlen
      | nil =>
        have hg : goSplit a '-' = [String.mk p, String.mk q] := by
          rw [goSplit, hs]; rfl
        simp only [argsAreNumbersAux, hg]
        cases hp : parseRune (String.mk p) with
        | error e => rfl
        | ok r1 =>
          cases hq : parseRune (String.mk q) with
          | error e => rfl
          | ok r2 =>
            by_cases hlt : r2 < r1
            · simp [hlt]
            · simp [hlt, argsAreNumbersAux]

/-- C10 witness: the token `"1-2"` (one dash). -/
theorem argsAreNumbers_one_dash_witness :
    ("1-2".data.count '-' = 1) ∧ (argsAreNumbersAux ["1-2"] false).1 = true :=
  ⟨by decide, (argsAreNumbers_one_dash "1-2" (by decide)).1⟩

/-! ### C8: reversed range reports a usage error and prints nothing -/

/-- C8: a range token whose two sides are dash-free valid hex with
`parse a > parse b` makes `argsAreNumbers` — and a whole `-c` run of `main`
through `mainPlain` — terminate with the usage error (usage text on standard
error, exit status 2) and produce no standard output. -/
theorem argsAreNumbers_reversed_range (m : String → String → Bool)
    (db : List String) (sa sb : String) (r1 r2 : Int)
    (ha : '-' ∉ sa.data) (hb : '-' ∉ sb.data)
    (h1 : parseRune sa = .ok r1) (h2 : parseRune sb = .ok r2) (hgt : r2 < r1) :
    argsAreNumbers [sa ++ "-" ++ sb] = (true, .error .usage) ∧
    mainPlain m db ⟨false, true, false, false, false, false, false⟩ [sa ++ "-" ++ sb] =
      .error .usage ∧
    errExitCode .usage = 2 := by
  have hnum : argsAreNumbers [sa ++ "-" ++ sb] = (true, .error .usage) := by
    simp only [argsAreNumbers, argsAreNumbersAux, goSplit_range_token ha hb, h1, h2,
      if_pos hgt]
  refine ⟨hnum, ?_, rfl⟩
  have hmode :
      mode ⟨false, true, false, false, false, false, false⟩ [sa ++ "-" ++ sb] =
        .ok ⟨false, true, false, false, false, false, false⟩ := by
    rw [mode]
    rfl
  rw [mainPlain, hmode]
  simp only [hnum]
  rfl

/-- C8 witness: the token `"42-41"`. -/
theorem argsAreNumbers_reversed_range_witness :
    argsAreNumbers ["42" ++ "-" ++ "41"] = (true, .error .usage) ∧
    mainPlain matchLit [] ⟨false, true, false, false, false, false, false⟩
        ["42" ++ "-" ++ "41"] = .error .usage ∧
    errExitCode .usage = 2 :=
  argsAreNumbers_reversed_range matchLit [] "42" "41" 0x42 0x41 (by decide) (by decide)
    (by decide) (by decide) (by decide)

/-! ### C9: characters from arguments -/

/-- The code points of the characters of one argument string. -/
def strCodes (s : String) : List Int := s.data.map fun c => (c.toNat : Int)

/-- Modelled from the claim's words: the per-argument character sequences
concatenated with a single space code point between (but not after)
successive arguments. -/
def charsJoinSpace : List (List Int) → List Int
  | [] => []
  | [x] => x
  | x :: y :: rest => x ++ 32 :: charsJoinSpace (y :: rest)

theorem argsAreChars_foldl (doText : Bool) (n : Nat) :
    ∀ (l : List String) (s : Nat) (acc : List Int), s + l.length = n →
      (l.enumFrom s).foldl
          (fun codes ia =>
            let codes2 := codes ++ ia.2.data.map fun c => (c.toNat : Int)
            if doText && decide (ia.1 < n - 1) then codes2 ++ [32] else codes2)
          acc
        = acc ++ (if doText then charsJoinSpace (l.map strCodes)
                  else (l.map strCodes).join) := by
  intro l
  induction l with
  | nil =>
    intro s acc hn
    cases doText <;> simp [charsJoinSpace]
  | cons a rest ih =>
    intro s acc hn
    show ((s, a) :: rest.enumFrom (s + 1)).foldl _ acc = _
    rw [List.foldl_cons]
    cases doText with
    | false =>
      rw [ih (s + 1) _ (by simp at hn ⊢; omega)]
      simp [strCodes, List.append_assoc]
    | true =>
      cases rest with
      | nil =>
        have hcond : ¬(s < n - 1) := by simp at hn; omega
        rw [ih (s + 1) _ (by simp at hn ⊢; omega)]
        simp [hcond, charsJoinSpace, strCodes]
      | cons b rest2 =>
        have hcond : s < n - 1 := by simp at hn; omega
        rw [ih (s + 1) _ (by simp at hn ⊢; omega)]
        simp [hcond, charsJoinSpace, strCodes, List.append_assoc]

/-- C9: `argsAreChars` concatenates, in argument order, the code points of
every character of every argument, and inserts one space code point between
(not after) successive arguments exactly when plain-text output is active;
in particular `["AB", "CD"]` with `-t` yields `A,B,space,C,D`. -/
theorem argsAreChars_spec (doText : Bool) (args : List String) :
    argsAreChars doText args =
      (if doText then charsJoinSpace (args.map strCodes)
       else (args.map strCodes).join) ∧
    argsAreChars true ["AB", "CD"] = [65, 66, 32, 67, 68] := by
  refine ⟨?_, by decide⟩
  have h := argsAreChars_foldl doText args.length args 0 [] (by simp)
  rw [argsAreChars, List.enum]
  rw [h]
  simp

/-! ### C1: regexp search scans raw lines in file order -/

theorem lineOk_runeOfLineE {l : String} (h : lineOk l = true) (i : Nat) :
    runeOfLineE i l = .ok (codeOfLine l, tabOfLine l) := by
  rw [lineOk] at h
  cases hf : l.data.findIdx? fun c => c == '\t' || c == ';' with
  | none =>
    rw [hf] at h
    simp at h
  | some tab =>
    rw [hf] at h
    have h2 : (parseRune (String.mk (l.data.take tab))).isOk = true := h
    cases hp : parseRune (String.mk (l.data.take tab)) with
    | error e =>
      rw [hp] at h2
      simp [Except.isOk, Except.toBool] at h2
    | ok r =>
      have hE : ∀ j : Nat, runeOfLineE j l = .ok (r, tab) := by
        intro j
        rw [runeOfLineE, hf]
        show Except.map (fun x => (x, tab)) (parseRune (String.mk (l.data.take tab))) = _
        rw [hp]
        rfl
      rw [hE i, codeOfLine, hE 0, tabOfLine, hf]
      rfl

theorem snd_mem_of_mem_enumFrom {α : Type} {p : Nat × α} :
    ∀ {l : List α} {s : Nat}, p ∈ l.enumFrom s → p.2 ∈ l := by
  intro l
  induction l with
  | nil => intro s h; simp [List.enumFrom] at h
  | cons a rest ih =>
    intro s h
    rcases List.mem_cons.mp h with h | h
    · rw [h]; exact List.mem_cons_self _ _
    · exact List.mem_cons_of_mem _ (ih h)

theorem grepOne_eq (m : String → String → Bool) (a : String)
    (ps : List (Nat × String)) (h : ∀ p ∈ ps, lineOk p.2 = true) :
    grepOne m a ps =
      .ok ((ps.filter fun p => m a p.2).map fun p => codeOfLine p.2) := by
  induction ps with
  | nil => rfl
  | cons il rest ih =>
    have hil : lineOk il.2 = true := h il (List.mem_cons_self _ _)
    have hrest := ih fun p hp => h p (List.mem_cons_of_mem _ hp)
    rw [grepOne, List.filter_cons]
    by_cases hm : m a il.2
    · rw [if_pos hm, if_pos (by simp [hm]), lineOk_runeOfLineE hil, hrest]
      rfl
    · rw [if_neg hm, if_neg (by simp [hm]), hrest]

theorem enumFrom_filter_map {γ : Type} (p : String → Bool) (f : String → γ) :
    ∀ (lines : List String) (s : Nat),
      (((lines.enumFrom s).filter fun il => p il.2).map fun il => f il.2)
        = (lines.filter p).map f := by
  intro lines
  induction lines with
  | nil => intro s; rfl
  | cons a rest ih =>
    intro s
    show ((((s, a) :: rest.enumFrom (s + 1)).filter fun il => p il.2).map
        fun il => f il.2) = _
    rw [List.filter_cons, List.filter_cons]
    by_cases hp : p a
    · rw [if_pos (by simpa using hp), if_pos (by simpa using hp)]
      simp only [List.map_cons]
      rw [ih (s + 1)]
    · rw [if_neg (by simpa using hp), if_neg (by simpa using hp), ih (s + 1)]

/-- C1 (amended): for any matcher semantics `m` and any well-formed database
line list, `argsAreRegexpsE` scans, for each pattern in turn, every database
line in file order and collects the code point of every line the pattern
matches — the pattern is matched against the raw database line (not against
a lowercased constructed search key), results keep file order per pattern,
and a line matched by several patterns contributes once per pattern. -/
theorem argsAreRegexpsE_scan (m : String → String → Bool) (lines args : List String)
    (h : ∀ l ∈ lines, lineOk l = true) :
    argsAreRegexpsE m lines args =
      .ok ((args.map fun a => (lines.filter (m a)).map codeOfLine).join) := by
  induction args with
  | nil => rfl
  | cons a rest ih =>
    rw [argsAreRegexpsE,
      grepOne_eq m a lines.enum fun p hp => h p.2 (snd_mem_of_mem_enumFrom hp)]
    rw [List.enum, enumFrom_filter_map (m a) codeOfLine lines 0, ih]
    rfl

/-- C1 witness: the two-line database of the spec example with the literal
pattern `"LATIN CAPITAL LETTER A"` yields exactly `[0x41]`. -/
theorem argsAreRegexpsE_scan_witness :
    argsAreRegexpsE matchLit
        ["0041;LATIN CAPITAL LETTER A;Lu;0;L;;;;;N;;;;;",
         "0042;LATIN CAPITAL LETTER B;Lu;0;L;;;;;N;;;;;"]
        ["LATIN CAPITAL LETTER A"] =
      .ok ((["LATIN CAPITAL LETTER A"].map fun a =>
        (["0041;LATIN CAPITAL LETTER A;Lu;0;L;;;;;N;;;;;",
          "0042;LATIN CAPITAL LETTER B;Lu;0;L;;;;;N;;;;;"].filter
            (matchLit a)).map codeOfLine).join) ∧
    argsAreRegexpsE matchLit
        ["0041;LATIN CAPITAL LETTER A;Lu;0;L;;;;;N;;;;;",
         "0042;LATIN CAPITAL LETTER B;Lu;0;L;;;;;N;;;;;"]
        ["LATIN CAPITAL LETTER A"] = .ok [65] :=
  ⟨argsAreRegexpsE_scan matchLit
      ["0041;LATIN CAPITAL LETTER A;Lu;0;L;;;;;N;;;;;",
       "0042;LATIN CAPITAL LETTER B;Lu;0;L;;;;;N;;;;;"]
      ["LATIN CAPITAL LETTER A"] (by decide),
    by decide⟩

/-- C1 counterexample: with the uppercase literal pattern `"LATIN"` the code
includes 0x41 although the pattern does not match the lowercased search key
the claim describes, so "contributes exactly when the pattern matches the
constructed search key" is false of the code. -/
theorem argsAreRegexpsE_not_key_based :
    argsAreRegexpsE matchLit ["0041;LATIN CAPITAL LETTER A;Lu;0;L;;;;;N;;;;;"]
        ["LATIN"] = .ok [65] ∧
    matchLit "LATIN" (searchKeySpec "0041;LATIN CAPITAL LETTER A;Lu;0;L;;;;;N;;;;;") =
      false := by decide

/-! ### Database loading and description helpers -/

theorem lookupRec_of_absent {es : List (Int × String)} {r : Int}
    (h : ∀ e ∈ es, e.1 ≠ r) : lookupRec es r = "" := by
  rw [lookupRec]
  cases hf : es.reverse.find? fun e => e.1 == r with
  | none => rfl
  | some e =>
    have h1 := List.find?_some hf
    have hm := List.mem_of_find?_eq_some hf
    rw [List.mem_reverse] at hm
    exact absurd (by simpa using h1) (h e hm)

theorem mem_getFileLines_no_newline {text l : String} (h : l ∈ getFileLines text) :
    '\n' ∉ l.data := by
  have h2 : l ∈ goSplit text '\n' := by
    rw [getFileLines, dropTrailingEmpty] at h
    cases hg : (goSplit text '\n').getLast? with
    | none => rw [hg] at h; exact h
    | some x =>
      rw [hg] at h
      have h3 : l ∈ (if x = "" then (goSplit text '\n').dropLast
          else goSplit text '\n') := h
      by_cases hx : x = ""
      · rw [if_pos hx] at h3
        exact (List.dropLast_sublist _).subset h3
      · rw [if_neg hx] at h3
        exact h3
  rw [goSplit] at h2
  obtain ⟨p, hp, hl⟩ := List.mem_map.mp h2
  intro hm
  rw [← hl] at hm
  exact not_mem_of_mem_splitChar hp hm

theorem loadIndexAux_records :
    ∀ (ps : List (Nat × String)) (es : List (Int × String)),
      loadIndexAux ps = .ok es →
      ∀ e ∈ es, ∃ p ∈ ps, ∃ k, e.2 = String.mk (p.2.data.drop k) := by
  intro ps
  induction ps with
  | nil =>
    intro es h e he
    simp [loadIndexAux] at h
    subst h
    simp at he
  | cons il rest ih =>
    intro es h e he
    rw [loadIndexAux] at h
    cases hr : runeOfLineE il.1 il.2 with
    | error e2 => rw [hr] at h; simp at h
    | ok rt =>
      rw [hr] at h
      cases hrec : loadIndexAux rest with
      | error e2 => rw [hrec] at h; simp [Except.map] at h
      | ok es2 =>
        rw [hrec] at h
        simp only [Except.map, Except.ok.injEq] at h
        subst h
        rcases List.mem_cons.mp he with he | he
        · exact ⟨il, List.mem_cons_self _ _, rt.2 + 1, by rw [he]⟩
        · obtain ⟨p, hp, k, hk⟩ := ih es2 hrec e he
          exact ⟨p, List.mem_cons_of_mem _ hp, k, hk⟩

theorem lookupRec_no_newline (text : String) (es : List (Int × String)) (r : Int)
    (h : loadIndex (getFileLines text) = .ok es) : '\n' ∉ (lookupRec es r).data := by
  rw [lookupRec]
  cases hf : es.reverse.find? fun e => e.1 == r with
  | none => decide
  | some e =>
    show '\n' ∉ e.2.data
    have hm := List.mem_of_find?_eq_some hf
    rw [List.mem_reverse] at hm
    rw [loadIndex] at h
    obtain ⟨p, hp, k, hk⟩ := loadIndexAux_records _ _ h e hm
    rw [hk]
    intro hmem
    exact mem_getFileLines_no_newline (snd_mem_of_mem_enumFrom hp)
      (List.drop_subset k _ hmem)

theorem digitChar_ne_newline (n : Nat) : Nat.digitChar n ≠ '\n' := by
  by_cases h : n < 16
  · interval_cases n <;> decide
  · rw [Nat.digitChar]
    repeat rw [if_neg (by omega)]
    decide

theorem toDigitsCore_no_newline (b : Nat) :
    ∀ (fuel n : Nat) (acc : List Char),
      '\n' ∉ acc → '\n' ∉ Nat.toDigitsCore b fuel n acc := by
  intro fuel
  induction fuel with
  | zero => intro n acc h; exact h
  | succ fuel ih =>
    intro n acc h
    rw [Nat.toDigitsCore]
    split
    · intro hm
      rcases List.mem_cons.mp hm with hm | hm
      · exact digitChar_ne_newline _ hm.symm
      · exact h hm
    · refine ih _ _ ?_
      intro hm
      rcases List.mem_cons.mp hm with hm | hm
      · exact digitChar_ne_newline _ hm.symm
      · exact h hm

theorem toString_nat_no_newline (n : Nat) : '\n' ∉ (toString n).data := by
  show '\n' ∉ Nat.toDigits 10 n
  rw [Nat.toDigits]
  exact toDigitsCore_no_newline 10 (n + 1) n [] (by simp)

/-! ### C4: absent records -/

/-- C4 (amended): a code point with no database entry is not an error and
never aborts the run; with `-d` and `-u` it renders the empty description
string, but with `-U` the empty record fails the 14-field check and renders
the single inline field-count message instead of an empty description. -/
theorem descRun_absent (text : String) (r : Int) (es : List (Int × String))
    (h : loadIndex (getFileLines text) = .ok es) (habs : ∀ e ∈ es, e.1 ≠ r) :
    descRun false text [r] = .ok [(r, "")] ∧
    descRun true text [r] =
      .ok [(r, ": can\x27t print: expected 14 fields, got 1\n")] := by
  have hl := lookupRec_of_absent habs
  have hd : dumpUnicode "" = ": can\x27t print: expected 14 fields, got 1\n" := by decide
  constructor
  · rw [descRun, h]
    simp [hl]
  · rw [descRun, h]
    simp [hl, hd]

/-- C4 witness: the empty database and code point 0x41. -/
theorem descRun_absent_witness :
    descRun false "" [65] = .ok [(65, "")] ∧
    descRun true "" [65] = .ok [(65, ": can\x27t print: expected 14 fields, got 1\n")] :=
  descRun_absent "" 65 [] (by decide) (by decide)

/-- C4 counterexample: in full (`-U`) mode a valid code point with no
database entry renders the inline `can't print` message — a non-empty
description string — refuting "renders an empty description string in every
detail level" at the concrete input `codes = [0x41]`, empty database. -/
theorem descRun_absent_full_not_empty :
    descRun true "" [65] = .ok [(65, ": can\x27t print: expected 14 fields, got 1\n")] ∧
    (": can\x27t print: expected 14 fields, got 1\n" : String) ≠ "" := by decide

/-! ### C5: non-14-field records in full mode -/

/-- C5: in full (`-U`) description mode, a record whose semicolon-split
field count differs from 14 makes `dumpUnicode` emit the single inline
field-count message for that code point only; the run is not terminated and
every code point of the batch is still rendered. -/
theorem descRun_field_mismatch (text : String) (codes : List Int)
    (es : List (Int × String)) (r : Int)
    (h : loadIndex (getFileLines text) = .ok es) (hr : r ∈ codes)
    (hf : ((splitChar ';' (lookupRec es r).data).map String.mk).length ≠ 14) :
    descRun true text codes =
      .ok (codes.map fun c => (c, dumpUnicode (lookupRec es c))) ∧
    (codes.map fun c => (c, dumpUnicode (lookupRec es c))).length = codes.length ∧
    dumpUnicode (lookupRec es r) =
      lookupRec es r ++ ": can\x27t print: expected 14 fields, got " ++
        toString ((splitChar ';' (lookupRec es r).data).map String.mk).length ++ "\n" ∧
    (dumpUnicode (lookupRec es r)).data.count '\n' = 1 := by
  have hne : ((splitChar ';' (lookupRec es r).data).map String.mk).length ≠ 0 := by
    intro h0
    exact splitChar_ne_nil ';' _ (List.map_eq_nil.mp (List.length_eq_zero.mp h0))
  have hdump : dumpUnicode (lookupRec es r) =
      lookupRec es r ++ ": can\x27t print: expected 14 fields, got " ++
        toString ((splitChar ';' (lookupRec es r).data).map String.mk).length ++ "\n" := by
    rw [dumpUnicode]
    rw [if_neg hne, if_pos hf]
  refine ⟨?_, by simp, hdump, ?_⟩
  · rw [descRun, h]
    rfl
  · have hc1 : (lookupRec es r).data.count '\n' = 0 :=
      List.count_eq_zero.mpr (lookupRec_no_newline text es r h)
    have hc2 : (toString ((splitChar ';' (lookupRec es r).data).map
        String.mk).length).data.count '\n' = 0 :=
      List.count_eq_zero.mpr (toString_nat_no_newline _)
    have hc3 : (": can\x27t print: expected 14 fields, got " : String).data.count '\n' = 0 := by
      decide
    have hc4 : ("\n" : String).data.count '\n' = 1 := by decide
    rw [hdump, strData_append, strData_append, strData_append]
    rw [List.count_append, List.count_append, List.count_append]
    rw [hc1, hc2, hc3, hc4]

/-- C5 witness: the one-line database `"0041;a"` (record `"a"`, 1 field). -/
theorem descRun_field_mismatch_witness :
    descRun true "0041;a" [65] =
      .ok ([65].map fun c => (c, dumpUnicode (lookupRec [(65, "a")] c))) :=
  (descRun_field_mismatch "0041;a" [65] [(65, "a")] 65 (by decide) (by decide)
    (by decide)).1

/-! ### C7: loading splits on newline and dies on separator-free lines -/

theorem dropTrailingEmpty_concat (xs : List String) :
    dropTrailingEmpty (xs ++ [""]) = xs := by
  simp [dropTrailingEmpty, List.getLast?_concat]

theorem loadIndexAux_malformed :
    ∀ (lines : List String) (st i : Nat),
      (∀ l ∈ lines.take i, lineOk l = true) →
      (lines.getD i "").data.findIdx? (fun c => c == '\t' || c == ';') = none →
      i < lines.length →
      loadIndexAux (lines.enumFrom st) = .error (.malformed (st + i)) := by
  intro lines
  induction lines with
  | nil =>
    intro st i h1 h2 h3
    simp at h3
  | cons a rest ih =>
    intro st i h1 h2 h3
    cases i with
    | zero =>
      have hr : runeOfLineE st a = .error (.malformed st) := by
        rw [runeOfLineE]
        rw [show (a :: rest).getD 0 "" = a from rfl] at h2
        rw [h2]
      show loadIndexAux ((st, a) :: rest.enumFrom (st + 1)) = _
      rw [loadIndexAux, hr]
      rfl
    | succ j =>
      have ha : lineOk a = true :=
        h1 a (by rw [List.take_succ_cons]; exact List.mem_cons_self _ _)
      have hrest : loadIndexAux (rest.enumFrom (st + 1)) =
          .error (.malformed (st + (j + 1))) := by
        rw [show st + (j + 1) = st + 1 + j by omega]
        exact ih (st + 1) j
          (fun l hl => h1 l
            (by rw [List.take_succ_cons]; exact List.mem_cons_of_mem _ hl))
          h2 (by simpa using h3)
      show loadIndexAux ((st, a) :: rest.enumFrom (st + 1)) = _
      rw [loadIndexAux, lineOk_runeOfLineE ha st, hrest]
      rfl

/-- C7: `getFile` splits the database text into lines on newline, dropping
the single trailing empty line a final newline produces, and building the
code-point index fails fatally at the first line with neither a tab nor a
semicolon separator, reporting that line's number; the failed load yields no
(partial) index. -/
theorem getFile_malformed (s text : String) (i : Nat)
    (h1 : ∀ l ∈ (getFileLines text).take i, lineOk l = true)
    (h2 : ((getFileLines text).getD i "").data.findIdx?
        (fun c => c == '\t' || c == ';') = none)
    (h3 : i < (getFileLines text).length) :
    getFileLines (s ++ "\n") = goSplit s '\n' ∧
    loadIndex (getFileLines text) = .error (.malformed i) := by
  constructor
  · have hd : (s ++ "\n").data = s.data ++ ['\n'] := by rw [strData_append]
    rw [getFileLines, goSplit, hd, splitChar_append_last, List.map_append]
    exact dropTrailingEmpty_concat _
  · have hm := loadIndexAux_malformed (getFileLines text) 0 i h1 h2 h3
    rw [Nat.zero_add] at hm
    exact hm

/-- C7 witness: the two-line text `"0041;a\nbad"` whose second line has no
separator. -/
theorem getFile_malformed_witness :
    getFileLines ("x" ++ "\n") = goSplit "x" '\n' ∧
    loadIndex (getFileLines "0041;a\nbad") = .error (.malformed 1) :=
  getFile_malformed "x" "0041;a\nbad" 1 (by decide) (by decide) (by decide)

/-! ### C6: range-mode rendering -/

/-- The range rendering of `main` restated entry-wise: each entry is the
`hexcode char` pair followed by its separator — a line break after the
entries at indices 3, 7, 11, …, a tab after every other entry (including a
final entry that does not end a line) — with the final line-break fix-up
applied to the whole buffer. -/
def renderRangeGrouped (codes : List Int) : List Char :=
  fixupNL ((codes.enum.map fun ic => rangeEntry ic.2 ++ rangeSep ic.1).join)

/-- Modelled from the original claim's words: a tab only *between* entries
within a line, i.e. no tab after the final entry of an unfinished line.
It exists to be compared with the buffer loop of `main`. -/
def renderRangeClaim (codes : List Int) : List Char :=
  fixupNL ((codes.enum.map fun ic =>
    rangeEntry ic.2 ++
      (if ic.1 % 4 = 3 then ['\n']
       else if ic.1 + 1 = codes.length then [] else ['\t'])).join)

theorem foldl_append_join {α β : Type} (g : α → List β) :
    ∀ (l : List α) (b : List β),
      l.foldl (fun acc x => acc ++ g x) b = b ++ (l.map g).join := by
  intro l
  induction l with
  | nil => intro b; simp
  | cons a rest ih =>
    intro b
    rw [List.foldl_cons, ih (b ++ g a)]
    simp [List.append_assoc]

/-- C6 (amended): whenever `printRange` is set and plain-text output is off,
the buffer loop of `main` renders the code points exactly as
`renderRangeGrouped` describes: `hexcode char` pairs (lowercase hex,
zero-padded to at least four digits), a line break after every entry whose
index is 3 mod 4 and a tab after every other entry — including the last
entry of an unfinished final line, so a tab may immediately precede the
final line break — with a trailing line break appended exactly when the
buffer is non-empty and does not already end in one. -/
theorem renderPlain_range (fl : Flags) (codes : List Int) (h : fl.doText = false) :
    renderPlain fl true codes = String.mk (renderRangeGrouped codes) := by
  rw [renderPlain, if_neg (by simp [h]), renderRangeGrouped]
  have hfun : ∀ (b : List Char) (ic : Nat × Int),
      (if true then b ++ rangeEntry ic.2 ++ rangeSep ic.1
       else if fl.doChar then b ++ [charOf ic.2, '\n']
       else if fl.doNum then b ++ hex4 ic.2 ++ ['\n'] else b)
        = b ++ (rangeEntry ic.2 ++ rangeSep ic.1) := by
    intro b ic
    rw [if_pos rfl, List.append_assoc]
  rw [List.foldl_ext _ _ _ fun acc ic _ => hfun acc ic]
  rw [foldl_append_join (fun ic => rangeEntry ic.2 ++ rangeSep ic.1) codes.enum []]
  rfl

/-- C6 witness: `printRange` rendering of `[0x41, 0x42]` under `-c` flags. -/
theorem renderPlain_range_witness :
    renderPlain ⟨false, true, false, false, false, false, false⟩ true [65, 66] =
      String.mk (renderRangeGrouped [65, 66]) :=
  renderPlain_range ⟨false, true, false, false, false, false, false⟩ [65, 66] rfl

/-- C6 counterexample: a single range entry is followed by a tab *and* the
appended final line break (`"0041 A\t\n"`), while the claim's "tab between
entries within a line" wording predicts `"0041 A\n"`; the two differ at the
concrete input `codes = [0x41]`. -/
theorem renderPlain_range_trailing_tab :
    renderPlain ⟨false, true, false, false, false, false, false⟩ true [65] =
      "0041 A\t\n" ∧
    String.mk (renderRangeClaim [65]) = "0041 A\n" ∧
    renderPlain ⟨false, true, false, false, false, false, false⟩ true [65] ≠
      String.mk (renderRangeClaim [65]) := by decide
